import Mathlib

/-!
Shallow embedding of the StoreScheduler constraint-model construction layer
(`app/solver.py`, `app/config.py`, `db/create_tables.py`).

The CP-SAT model built by `solver.py` consists of boolean variables and linear
constraints, some reified by an enforcement literal (`OnlyEnforceIf`).  We embed
a model as a `List LinCon` over symbolic variables `CVar`, and a solver solution
as an assignment `CAssign : CVar → Bool`.  Each `add_*_constraints` function of
the source is translated to a Lean function producing the list of constraints it
adds, in the source's iteration order; functions that can raise an uncaught
Python exception return `Except AssembleErr _`.
-/

namespace SS

/-- Symbolic CP-SAT variables, one constructor per `model.NewBoolVar` family in
`solver.py`: `shift_e{e}_d{d}_h{h}` (allocated in `main`), `work_e{e}_d{d}`
(work-indicator group), `transition_e{e}_d{d}_h{h}` (transition group),
`both_off_e{e}_d{d}_d{d+1}` (consecutive-days-off group). -/
inductive CVar where
  | shift (e d h : Nat)
  | workInd (e d : Nat)
  | transVar (e d h : Nat)
  | bothOff (e d : Nat)
deriving DecidableEq

/-- A solver solution: a boolean value for every variable. -/
def CAssign : Type := CVar → Bool

/-- Comparison operators appearing in `model.Add(...)` calls of `solver.py`. -/
inductive CmpOp where
  | le | ge | eq | ne | gt
deriving DecidableEq

/-- One `model.Add(linear-expression cmp constant)` constraint, optionally
reified by `.OnlyEnforceIf(literal)`; the literal is a variable together with
its polarity (`var.Not()` has polarity `false`). -/
structure LinCon where
  terms : List (Int × CVar)
  cmp : CmpOp
  bound : Int
  onlyIf : Option (CVar × Bool)
deriving DecidableEq

/-- Boolean to integer, as CP-SAT evaluates boolean variables in linear sums. -/
def b2i (b : Bool) : Int := if b then 1 else 0

/-- Value of a linear expression under an assignment. -/
def evalTerms (σ : CAssign) (ts : List (Int × CVar)) : Int :=
  (ts.map (fun p => p.1 * b2i (σ p.2))).sum

/-- Truth of a comparison between the expression value and the bound. -/
def holdsCmp (c : CmpOp) (x b : Int) : Bool :=
  match c with
  | .le => x ≤ b
  | .ge => b ≤ x
  | .eq => x = b
  | .ne => !(x = b : Bool)
  | .gt => b < x

/-- Truth of an enforcement literal (absent literal is always active). -/
def litOk (σ : CAssign) : Option (CVar × Bool) → Bool
  | none => true
  | some (v, pol) => σ v == pol

/-- A reified constraint holds when its literal is false, or the comparison
holds. -/
def conHolds (σ : CAssign) (c : LinCon) : Bool :=
  !(litOk σ c.onlyIf) || holdsCmp c.cmp (evalTerms σ c.terms) c.bound

/-- An assignment is a solution of a model when every constraint holds. -/
def modelHolds (σ : CAssign) (m : List LinCon) : Bool :=
  m.all (conHolds σ)

/-- Membership test of `(e, day, hour)` in the `timeslots_vars` dictionary
allocated in `main` (`solver.py` line 452): its keys are exactly
`range(num_employees) × range(num_days) × range(hours_blocks)`. -/
def gridMem (E D H e d h : Nat) : Bool :=
  decide (e < E) && decide (d < D) && decide (h < H)

/-! ### Input tables (schema from `db/create_tables.py`) -/

/-- A row of the `Employees` table. -/
structure EmployeeRow where
  employeeID : Nat
  roleID : Nat
  statusID : Nat
  dailyMaxHours : Int
  dailyMinHours : Int
  dailyOptHours : Int
  weeklyMaxHours : Int
  weeklyMinHours : Int
  weeklyOptHours : Int
deriving DecidableEq

/-- A row of the `Timeslot` table (the `Datetime` column is not consulted by
constraint assembly and is omitted). -/
structure TimeslotRow where
  timeslotID : Nat
  codeID : Nat
  day : Nat
  hour : Nat
deriving DecidableEq

/-- A row of the `Availability_Preferences` table.  Per `db/create_tables.py`
lines 82-92 its only columns are `AvailabilitePreferencesID`, `TimeslotID`,
`EmployeeID` — there are no `Day` or `Hour` columns. -/
structure AvailabilityRow where
  availabilitePreferencesID : Nat
  timeslotID : Nat
  employeeID : Nat
deriving DecidableEq

/-- The `(TimeslotID, SkillID) ↦ workload` requirement record stored in
`workload_dict` (`solver.py` line 461). -/
structure WorkloadReq where
  minAmount : Int
  optAmount : Int
deriving DecidableEq

/-! ### Availability group (`add_availability_constraints`, lines 313-344) -/

/-- Column access `row[col]` on a dict-row of `Availability_Preferences`
(`availability_df.iter_rows(named=True)`); a missing column is a `KeyError`,
modelled as `none`. -/
def availRowGet (r : AvailabilityRow) (col : String) : Option Nat :=
  if col = "AvailabilitePreferencesID" then some r.availabilitePreferencesID
  else if col = "TimeslotID" then some r.timeslotID
  else if col = "EmployeeID" then some r.employeeID
  else none

/-- The loop at lines 329-333 building the `unavailable` set: it reads
`row['EmployeeID']`, `row['Day']`, `row['Hour']` from each row; a `KeyError`
aborts the whole loop (`none`). -/
def buildUnavailable : List AvailabilityRow → Option (List (Nat × Nat × Nat))
  | [] => some []
  | r :: rest => do
      let e ← availRowGet r "EmployeeID"
      let d ← availRowGet r "Day"
      let h ← availRowGet r "Hour"
      let tail ← buildUnavailable rest
      pure ((e, d, h) :: tail)

/-- Whether the blanket `except Exception` at line 342 catches an error while
the availability group runs (it logs the traceback and returns normally). -/
def availabilityCaughtError (rows : List AvailabilityRow) : Bool :=
  (buildUnavailable rows).isNone

/-- `add_availability_constraints` (lines 313-344).  The whole body is wrapped
in `try/except Exception`: on an internal error the function logs and returns
with no constraints added; otherwise it fixes `shift[e,d,h] = 0` for every grid
triple found in the `unavailable` set. -/
def add_availability_constraints (rows : List AvailabilityRow) (E D H : Nat) :
    List LinCon :=
  match buildUnavailable rows with
  | none => []
  | some unav =>
      (List.range E).flatMap (fun e =>
        (List.range D).flatMap (fun d =>
          (List.range H).flatMap (fun h =>
            if (e, d, h) ∈ unav then
              [⟨[(1, CVar.shift e d h)], CmpOp.eq, 0, none⟩]
            else [])))

/-! ### Work-indicator group (`add_work_indicator_constraints`, lines 27-52) -/

/-- The day sum `sum(timeslots_vars[(e, d, h)] for h in range(hours_blocks))`. -/
def shiftSumTerms (e d H : Nat) : List (Int × CVar) :=
  (List.range H).map (fun h => ((1 : Int), CVar.shift e d h))

/-- `add_work_indicator_constraints` (lines 27-52): for every `(e, d)` it links
`work_e_d[e][d]` to the day's shift sum with a pair of half-reified
constraints. -/
def add_work_indicator_constraints (E D H : Nat) : List LinCon :=
  (List.range E).flatMap (fun e =>
    (List.range D).flatMap (fun d =>
      [⟨shiftSumTerms e d H, CmpOp.gt, 0, some (CVar.workInd e d, true)⟩,
       ⟨shiftSumTerms e d H, CmpOp.eq, 0, some (CVar.workInd e d, false)⟩]))

/-- The keys of the `work_e_d` dictionary after `add_work_indicator_constraints`
has run: `(e, d)` for every `e < num_employees`, `d < num_days`.  When the
work-indicator group is disabled the dictionary stays empty (`main` line 458). -/
def allWorkKeys (E D : Nat) : List (Nat × Nat) :=
  (List.range E).flatMap (fun e => (List.range D).map (fun d => (e, d)))

/-! ### Transition group (`add_transition_constraints`, lines 55-80) -/

/-- The constraints added for one `(e, d)` pair: for each `h < hours_blocks - 1`
a reified pair defining `transition_e_d_h ↔ shift[e,d,h] ≠ shift[e,d,h+1]`, and
finally `sum(transition_vars) ≤ 2`. -/
def transitionConsFor (e d H : Nat) : List LinCon :=
  ((List.range (H - 1)).flatMap (fun h =>
    [⟨[(1, CVar.shift e d h), (-1, CVar.shift e d (h+1))], CmpOp.ne, 0,
      some (CVar.transVar e d h, true)⟩,
     ⟨[(1, CVar.shift e d h), (-1, CVar.shift e d (h+1))], CmpOp.eq, 0,
      some (CVar.transVar e d h, false)⟩]))
  ++ [⟨(List.range (H - 1)).map (fun h => ((1 : Int), CVar.transVar e d h)),
       CmpOp.le, 2, none⟩]

/-- `add_transition_constraints` (lines 55-80). -/
def add_transition_constraints (E D H : Nat) : List LinCon :=
  (List.range E).flatMap (fun e =>
    (List.range D).flatMap (fun d => transitionConsFor e d H))

/-! ### Consecutive-days-off group (`add_consecutive_days_off_constraints`,
lines 83-106).  The inner loop reads `work_e_d[e][d]` and `work_e_d[e][d+1]`;
a missing key is an uncaught `KeyError` that aborts constraint assembly. -/

/-- Errors that escape a constraint-assembly function in `solver.py`:
a `KeyError` from the `work_e_d` dictionary (consecutive-days-off group with
the work-indicator group disabled), or the `ValueError` raised at lines 259-262
for a positive-minimum workload with no eligible employees. -/
structure WorkloadInfeasible where
  skillID : Nat
  timeslotID : Nat
  minAmount : Int
deriving DecidableEq

inductive AssembleErr where
  | keyErr (e d : Nat)
  | workloadErr (w : WorkloadInfeasible)
deriving DecidableEq

/-- Inner loop over `d in range(num_days - 1)` for a fixed employee: allocates
`both_off` and adds the two half-reified off-day constraints, after looking up
`work_e_d[e][d]` and `work_e_d[e][d+1]`. -/
def cdoPairs (keys : List (Nat × Nat)) (e : Nat) : List Nat →
    Except AssembleErr (List LinCon)
  | [] => .ok []
  | d :: rest =>
      if (e, d) ∈ keys then
        if (e, d + 1) ∈ keys then
          match cdoPairs keys e rest with
          | .error err => .error err
          | .ok cs =>
              .ok ([⟨[(1, CVar.workInd e d)], CmpOp.eq, 0,
                     some (CVar.bothOff e d, true)⟩,
                    ⟨[(1, CVar.workInd e (d+1))], CmpOp.eq, 0,
                     some (CVar.bothOff e d, true)⟩] ++ cs)
        else .error (.keyErr e (d + 1))
      else .error (.keyErr e d)

/-- Outer loop over employees; after each employee's pair loop the source adds
`sum(consecutive_days_off) ≥ 1`. -/
def cdoEmployees (keys : List (Nat × Nat)) (D : Nat) : List Nat →
    Except AssembleErr (List LinCon)
  | [] => .ok []
  | e :: rest =>
      match cdoPairs keys e (List.range (D - 1)) with
      | .error err => .error err
      | .ok pairCons =>
          match cdoEmployees keys D rest with
          | .error err => .error err
          | .ok restCons =>
              .ok (pairCons
                ++ [⟨(List.range (D - 1)).map
                      (fun d => ((1 : Int), CVar.bothOff e d)),
                     CmpOp.ge, 1, none⟩]
                ++ restCons)

/-- `add_consecutive_days_off_constraints` (lines 83-106), parameterised by the
current key set of the `work_e_d` dictionary. -/
def add_consecutive_days_off_constraints (keys : List (Nat × Nat)) (E D : Nat) :
    Except AssembleErr (List LinCon) :=
  cdoEmployees keys D (List.range E)

/-! ### Hour-bounds group (`add_hour_constraints`, lines 110-179).  Every
per-employee exception (including `IndexError` when `employees_df.row(e)` is
out of range) is caught at lines 167-178 and the loop continues. -/

/-- `add_hour_constraints`: weekly min/max then, per day, daily min/max, read
from the employee's row; an out-of-range employee index contributes nothing. -/
def add_hour_constraints (emps : List EmployeeRow) (E D H : Nat) : List LinCon :=
  (List.range E).flatMap (fun e =>
    match emps.get? e with
    | none => []
    | some r =>
        [⟨(List.range D).flatMap (fun d => shiftSumTerms e d H),
          CmpOp.ge, r.weeklyMinHours, none⟩,
         ⟨(List.range D).flatMap (fun d => shiftSumTerms e d H),
          CmpOp.le, r.weeklyMaxHours, none⟩]
        ++ (List.range D).flatMap (fun d =>
          [⟨shiftSumTerms e d H, CmpOp.ge, r.dailyMinHours, none⟩,
           ⟨shiftSumTerms e d H, CmpOp.le, r.dailyMaxHours, none⟩]))

/-! ### Workload group (`add_workload_constraints`, lines 183-310) -/

/-- The comprehension at lines 265-269 (and 299-303): shift variables of the
employees of `elig` whose id is a key of the variable grid at `(day, hour)`.
The database `EmployeeID` is used directly as the grid's employee index. -/
def eligibleShiftTerms (E D H : Nat) (elig : List Nat) (day hour : Nat) :
    List (Int × CVar) :=
  (elig.filter (fun e => gridMem E D H e day hour)).map
    (fun e => ((1 : Int), CVar.shift e day hour))

/-- Body of the `for skill in skills` loop at lines 246-280 for one skill:
no declared workload ⇒ skip; empty eligible list with positive minimum ⇒
`ValueError` (lines 256-262); empty variable list ⇒ skip; otherwise add
`sum(assigned_vars) ≥ min_workload`.  No upper-bound constraint is added
(the `OptAmount` is read into the dict but line 280 is only a TODO). -/
def skillWorkloadCons (workloadDict : Nat × Nat → Option WorkloadReq)
    (skillToEmployees : Nat → List Nat) (E D H : Nat) (ts day hour skill : Nat) :
    Except AssembleErr (List LinCon) :=
  match workloadDict (ts, skill) with
  | none => .ok []
  | some w =>
      let eligible := skillToEmployees skill
      if eligible.isEmpty then
        if 0 < w.minAmount then
          .error (.workloadErr ⟨skill, ts, w.minAmount⟩)
        else .ok []
      else
        let assigned := eligibleShiftTerms E D H eligible day hour
        if assigned.isEmpty then .ok []
        else .ok [⟨assigned, CmpOp.ge, w.minAmount, none⟩]

/-- The `for skill in skills` loop; a raised `ValueError` propagates. -/
def skillsLoop (workloadDict : Nat × Nat → Option WorkloadReq)
    (skillToEmployees : Nat → List Nat) (E D H : Nat) (ts day hour : Nat) :
    List Nat → Except AssembleErr (List LinCon)
  | [] => .ok []
  | s :: rest =>
      match skillWorkloadCons workloadDict skillToEmployees E D H ts day hour s with
      | .error err => .error err
      | .ok cs =>
          match skillsLoop workloadDict skillToEmployees E D H ts day hour rest with
          | .error err => .error err
          | .ok rs => .ok (cs ++ rs)

/-- The one-skill-per-timeslot block (lines 282-293): for each employee id the
comprehension appends `timeslots_vars.get((e, day, hour))` once per element of
`skills` (the guard does not depend on the skill), so the constraint sums
`len(skills)` copies of the same boolean variable. -/
def oneSkillCons (skills allIds : List Nat) (E D H day hour : Nat) : List LinCon :=
  allIds.flatMap (fun e =>
    let assigns : List (Int × CVar) :=
      if gridMem E D H e day hour then
        skills.map (fun _ => ((1 : Int), CVar.shift e day hour))
      else []
    if assigns.isEmpty then []
    else [⟨assigns, CmpOp.le, 1, none⟩])

/-- The manager-presence block (lines 295-309): for each skill whose declared
minimum at this timeslot is positive, require at least one manager variable,
when any manager id is a key of the grid. -/
def managerCons (workloadDict : Nat × Nat → Option WorkloadReq)
    (skills managerIds : List Nat) (E D H ts day hour : Nat) : List LinCon :=
  skills.flatMap (fun skill =>
    if 0 < (match workloadDict (ts, skill) with
            | some w => w.minAmount
            | none => 0) then
      let ma := eligibleShiftTerms E D H managerIds day hour
      if ma.isEmpty then [] else [⟨ma, CmpOp.ge, 1, none⟩]
    else [])

/-- The body of the `for ts in range(1, num_timeslots + 1)` loop: resolve the
timeslot row (a missing row is caught at lines 233-244 and skipped), then the
skills loop, the one-skill block, the manager block. -/
def tsLoop (workloadDict : Nat × Nat → Option WorkloadReq)
    (skillToEmployees : Nat → List Nat) (tsRows : List TimeslotRow)
    (skills : List Nat) (E D H : Nat) (managerIds allIds : List Nat)
    (enableOneSkill enableManager : Bool) :
    List Nat → Except AssembleErr (List LinCon)
  | [] => .ok []
  | ts :: rest =>
      match tsRows.find? (fun r => r.timeslotID == ts) with
      | none => tsLoop workloadDict skillToEmployees tsRows skills E D H
          managerIds allIds enableOneSkill enableManager rest
      | some row =>
          match skillsLoop workloadDict skillToEmployees E D H ts row.day row.hour
              skills with
          | .error err => .error err
          | .ok sk =>
              let os := if enableOneSkill then
                  oneSkillCons skills allIds E D H row.day row.hour
                else []
              let mg := if enableManager then
                  managerCons workloadDict skills managerIds E D H ts row.day row.hour
                else []
              match tsLoop workloadDict skillToEmployees tsRows skills E D H
                  managerIds allIds enableOneSkill enableManager rest with
              | .error err => .error err
              | .ok restCons => .ok (sk ++ os ++ mg ++ restCons)

/-- `add_workload_constraints` (lines 183-310). -/
def add_workload_constraints (workloadDict : Nat × Nat → Option WorkloadReq)
    (skillToEmployees : Nat → List Nat) (tsRows : List TimeslotRow)
    (skills : List Nat) (numTimeslots E D H : Nat) (managerIds allIds : List Nat)
    (enableOneSkill enableManager : Bool) :
    Except AssembleErr (List LinCon) :=
  tsLoop workloadDict skillToEmployees tsRows skills E D H managerIds allIds
    enableOneSkill enableManager (List.range' 1 numTimeslots)

/-! ### `setup_constraints` (lines 347-408) and `main` (lines 411-536) -/

/-- The constraint-group toggles.  In the source these are module-level
configuration globals; `config.py` defines only five of them (see the claim
about the configuration surface), but `setup_constraints` consumes all of
them. -/
structure AssembleFlags where
  enableAvailability : Bool
  enableWorkIndicator : Bool
  enableTransition : Bool
  enableConsecutiveDaysOff : Bool
  enableHours : Bool
  enableWorkload : Bool
  enableManager : Bool
  enableOneSkillPerTimeslot : Bool
deriving DecidableEq

/-- `setup_constraints` (lines 384-408): runs the enabled groups in source
order — availability, work indicator, transition, consecutive days off, hours,
workload — accumulating their constraints into the model.  The `work_e_d`
dictionary has keys only if the work-indicator group ran. -/
def setup_constraints (availRows : List AvailabilityRow)
    (emps : List EmployeeRow) (workloadDict : Nat × Nat → Option WorkloadReq)
    (skillToEmployees : Nat → List Nat) (tsRows : List TimeslotRow)
    (skills : List Nat) (E D H numTimeslots : Nat)
    (managerIds allIds : List Nat) (fl : AssembleFlags) :
    Except AssembleErr (List LinCon) :=
  let avail := if fl.enableAvailability then
      add_availability_constraints availRows E D H
    else []
  let wi := if fl.enableWorkIndicator then
      add_work_indicator_constraints E D H
    else []
  let tr := if fl.enableTransition then
      add_transition_constraints E D H
    else []
  let workKeys := if fl.enableWorkIndicator then allWorkKeys E D else []
  match (if fl.enableConsecutiveDaysOff then
      add_consecutive_days_off_constraints workKeys E D
    else .ok []) with
  | .error err => .error err
  | .ok cdo =>
      let hrs := if fl.enableHours then add_hour_constraints emps E D H else []
      match (if fl.enableWorkload then
          add_workload_constraints workloadDict skillToEmployees tsRows skills
            numTimeslots E D H managerIds allIds fl.enableOneSkillPerTimeslot
            fl.enableManager
        else .ok []) with
      | .error err => .error err
      | .ok wl => .ok (avail ++ wi ++ tr ++ cdo ++ hrs ++ wl)

/-- `HOURS_BLOCKS` from `app/config.py` line 11. -/
def HOURS_BLOCKS : Nat := 24

/-- The data `main` fetches from the database and derives before building the
model (lines 423-476): the tables, the preprocessed `workload_dict` and
`skill_to_employees` lookups, the skills list, the employee id lists, and the
number of distinct days. -/
structure SolverInputs where
  employees : List EmployeeRow
  tsRows : List TimeslotRow
  availRows : List AvailabilityRow
  workloadDict : Nat × Nat → Option WorkloadReq
  skillToEmployees : Nat → List Nat
  skills : List Nat
  numDays : Nat
  managerIds : List Nat
  allEmployeeIds : List Nat

/-- Outcome of one run of `main`: either the assembled model was handed to
`solver.Solve` (lines 508-510), or an exception escaped constraint assembly and
was caught by the handler at lines 533-535, in which case the solver is never
invoked. -/
inductive MainOutcome where
  | solved (m : List LinCon)
  | failed (e : AssembleErr)
deriving DecidableEq

/-- The model-building portion of `main` (lines 411-510): allocate the shift
grid for `num_employees × num_days × HOURS_BLOCKS`, run `setup_constraints`,
and on success invoke the solver on the assembled model. -/
def mainRun (inp : SolverInputs) (fl : AssembleFlags) : MainOutcome :=
  match setup_constraints inp.availRows inp.employees inp.workloadDict
      inp.skillToEmployees inp.tsRows inp.skills inp.employees.length
      inp.numDays HOURS_BLOCKS inp.tsRows.length inp.managerIds
      inp.allEmployeeIds fl with
  | .ok m => .solved m
  | .error e => .failed e

/-- Whether the external solver was invoked. -/
def solverInvoked : MainOutcome → Bool
  | .solved _ => true
  | .failed _ => false

/-- Solution extraction for one `(e, d)` (lines 516-522): the ascending list of
hours whose shift variable is true. -/
def extractHours (σ : CAssign) (e d H : Nat) : List Nat :=
  (List.range H).filter (fun h => σ (CVar.shift e d h))

/-- A list of hours is a single contiguous ascending run (each element is the
successor of the previous). -/
def chainSucc : List Nat → Bool
  | [] => true
  | [_] => true
  | a :: b :: t => (b == a + 1) && chainSucc (b :: t)

/-- Number of boolean variables allocated during a build with the given flags
and dimensions: the shift grid (`main` line 452), plus per enabled group its
auxiliary variables (work indicators, transitions, both-off pairs). -/
def varCountOf (E D H : Nat) (fl : AssembleFlags) : Nat :=
  E * D * H
  + (if fl.enableWorkIndicator then E * D else 0)
  + (if fl.enableTransition then E * D * (H - 1) else 0)
  + (if fl.enableConsecutiveDaysOff then E * (D - 1) else 0)

/-- The constraint count of a completed build (`none` when assembly failed). -/
def constraintCountOf (inp : SolverInputs) (fl : AssembleFlags) : Option Nat :=
  match mainRun inp fl with
  | .solved m => some m.length
  | .failed _ => none

/-- Position (0-based dataframe row index) of an employee id in the id list, as
`employees_df` rows are indexed by `employees_df.row(e)`. -/
def rowIndexOfId (ids : List Nat) (i : Nat) : Option Nat :=
  match ids with
  | [] => none
  | x :: xs => if x = i then some 0 else (rowIndexOfId xs i).map (· + 1)

/-! ### Configuration surface (`app/config.py` vs the import in
`app/solver.py` lines 8-21) -/

/-- The module-level names defined in `app/config.py`. -/
def configDefinedNames : List String :=
  ["DATABASE_PATH", "LOG_LEVEL", "LOG_FORMAT", "HOURS_BLOCKS",
   "ENABLE_WORK_INDICATOR", "ENABLE_TRANSITION", "ENABLE_CONSECUTIVE_DAYS_OFF",
   "ENABLE_HOURS", "ENABLE_WORKLOAD"]

/-- The names `app/solver.py` imports from `app.config` (lines 8-21). -/
def solverConfigImports : List String :=
  ["DATABASE_PATH", "LOG_LEVEL", "LOG_FORMAT", "HOURS_BLOCKS",
   "ENABLE_WORK_INDICATOR", "ENABLE_TRANSITION", "ENABLE_CONSECUTIVE_DAYS_OFF",
   "ENABLE_HOURS", "ENABLE_WORKLOAD", "ENABLE_AVAILABILITY", "ENABLE_MANAGER",
   "ENABLE_ONE_SKILL_PER_TIMESLOT"]

/-- The first imported name that `config.py` does not define; Python raises
`ImportError` at module load on such a name. -/
def firstMissingImport : Option String :=
  solverConfigImports.find? (fun n => !(configDefinedNames.contains n))

/-! ### Derived quantities used in claim statements -/

/-- The number of eligible-and-assigned employees counted by the workload sum:
the value of the very linear expression `sum(assigned_vars)` the source builds
at lines 265-269. -/
def assignedCount (σ : CAssign) (E D H : Nat) (elig : List Nat)
    (day hour : Nat) : Int :=
  evalTerms σ (eligibleShiftTerms E D H elig day hour)

/-! ### Concrete instances used by counterexamples and witnesses -/

/-- The assignment setting every boolean variable to `1`. -/
def allTrueAssign : CAssign := fun _ => true

/-- The assignment setting every boolean variable to `0`. -/
def allFalseAssign : CAssign := fun _ => false

/-- Flag records with a single group enabled. -/
def flNone : AssembleFlags := ⟨false, false, false, false, false, false, false, false⟩

def flWorkloadOnly : AssembleFlags :=
  ⟨false, false, false, false, false, true, false, false⟩

def flWorkloadOneSkill : AssembleFlags :=
  ⟨false, false, false, false, false, true, false, true⟩

def flAvailOnly : AssembleFlags :=
  ⟨true, false, false, false, false, false, false, false⟩

def flTransOnly : AssembleFlags :=
  ⟨false, false, true, false, false, false, false, false⟩

def flDaysOffNoIndicator : AssembleFlags :=
  ⟨false, false, false, true, false, false, false, false⟩

def flAllGroups : AssembleFlags :=
  ⟨true, true, true, true, true, true, true, true⟩

/-- One timeslot, id 1, at day 0 hour 0. -/
def oneTsRows : List TimeslotRow := [⟨1, 1, 0, 0⟩]

/-- Workload table for the C1 counterexample: `(ts 1, skill 1) ↦ min 1, opt 1`. -/
def c1Dict : Nat × Nat → Option WorkloadReq :=
  fun k => if k = (1, 1) then some ⟨1, 1⟩ else none

/-- Skill-eligibility for the C1 counterexample: employees 0 and 1 hold
skill 1. -/
def c1Skill : Nat → List Nat := fun s => if s = 1 then [0, 1] else []

/-- The model the C1 counterexample build produces: only the lower bound. -/
def c1Model : List LinCon :=
  [⟨[(1, CVar.shift 0 0 0), (1, CVar.shift 1 0 0)], CmpOp.ge, 1, none⟩]

/-- Workload table for the C2 counterexample: two skills, both with zero
minimum, at timeslot 1. -/
def c2Dict : Nat × Nat → Option WorkloadReq :=
  fun k => if k = (1, 1) ∨ k = (1, 2) then some ⟨0, 0⟩ else none

/-- The model the C2 counterexample build produces with the one-skill group
enabled: the duplicated-sum constraint `2·shift[0,0,0] ≤ 1`. -/
def c2ModelOn : List LinCon :=
  [⟨[(1, CVar.shift 0 0 0), (1, CVar.shift 0 0 0)], CmpOp.le, 1, none⟩]

/-- An `Availability_Preferences` table with a single row: preference 1 marks
employee 0 at timeslot 1. -/
def c3Rows : List AvailabilityRow := [⟨1, 1, 0⟩]

/-- Employee table with a single employee (id 1). -/
def oneEmployee : List EmployeeRow := [⟨1, 1, 1, 8, 4, 6, 40, 20, 32⟩]

/-- Inputs for the C5 failing input: one employee, a two-day horizon, no other
data. -/
def c5Inp : SolverInputs :=
  ⟨oneEmployee, [], [], fun _ => none, fun _ => [], [], 2, [], [1]⟩

/-- Inputs for the C7 counterexample: an availability table with one row and
nothing else. -/
def c7Inp : SolverInputs :=
  ⟨[], [], c3Rows, fun _ => none, fun _ => [], [], 1, [], []⟩

/-- The solution exhibiting the transition-constraint boundary gap: employee 0
works hours 0 and 2 of a 3-hour day, with both transition indicators set. -/
def c6Assign : CAssign := fun v =>
  match v with
  | .shift 0 0 0 => true
  | .shift 0 0 2 => true
  | .transVar 0 0 0 => true
  | .transVar 0 0 1 => true
  | _ => false

/-- Inputs for the determinism witness: one employee, one timeslot, a one-day
horizon. -/
def c9Inp : SolverInputs :=
  ⟨oneEmployee, oneTsRows, [], fun _ => none, fun _ => [], [], 1, [], [1]⟩

/-- Workload table for the C4 witness: timeslot 1, skill 1 requires a minimum
of 2 employees. -/
def c4Dict : Nat × Nat → Option WorkloadReq :=
  fun k => if k = (1, 1) then some ⟨2, 3⟩ else none

/-- Inputs for the C4 witness: the skill-1 requirement has no eligible
employees. -/
def c4Inp : SolverInputs :=
  ⟨[], oneTsRows, [], c4Dict, fun _ => [], [1], 1, [], []⟩

/-- Number of adjacent changes of the day profile `p` among hour pairs
`(h, h+1)` for `h < n`: the value the sum of the transition indicators is
forced to take in any solution (the indicators are reified both ways). -/
def changesUpTo (p : Nat → Bool) : Nat → Nat
  | 0 => 0
  | n + 1 => changesUpTo p n + (if p n == p (n + 1) then 0 else 1)

/-- Workload table for the C2 witness: a single skill with zero minimum. -/
def c2wDict : Nat × Nat → Option WorkloadReq :=
  fun k => if k = (1, 1) then some ⟨0, 0⟩ else none

/-- Skill-eligibility for the C2 witness: employee 0 holds every skill. -/
def c2wSe : Nat → List Nat := fun _ => [0]

/-- The model built at the C2 witness instance with the one-skill group
enabled: the workload lower bound followed by the (single-copy) one-skill
constraint. -/
def c2wModel : List LinCon :=
  [⟨[(1, CVar.shift 0 0 0)], CmpOp.ge, 0, none⟩,
   ⟨[(1, CVar.shift 0 0 0)], CmpOp.le, 1, none⟩]

/-! ## Helper lemmas -/

theorem conHolds_of_modelHolds {σ : CAssign} {m : List LinCon} {c : LinCon}
    (hm : modelHolds σ m = true) (hc : c ∈ m) : conHolds σ c = true :=
  List.all_eq_true.mp hm c hc

theorem modelHolds_append (σ : CAssign) (a b : List LinCon) :
    modelHolds σ (a ++ b) = (modelHolds σ a && modelHolds σ b) :=
  List.all_append

theorem evalTerms_append (σ : CAssign) (a b : List (Int × CVar)) :
    evalTerms σ (a ++ b) = evalTerms σ a + evalTerms σ b := by
  simp [evalTerms]

/-! ## Claims -/

/-- Claim C3 (status: code_bug).  The claim says that with the availability
group enabled, every `(employee, timeslot)` pair listed in
`Availability_Preferences` leads to a fixed `shift[e,d,h] = 0` constraint.  In
the code, `add_availability_constraints` reads `row['Day']` and `row['Hour']`
from a table whose schema (`db/create_tables.py` lines 82-92) has no such
columns; the resulting `KeyError` is caught by the function's blanket handler
and swallowed, so no availability constraint is ever generated: at the failing
input (a table with the single row `(1, timeslot 1, employee 0)` and a 1×1×1
grid) the group contributes an empty constraint list, assembly succeeds with an
empty model, and the all-ones assignment — which assigns the listed employee —
is a solution. -/
theorem availability_constraints_never_added :
    availabilityCaughtError c3Rows = true
    ∧ add_availability_constraints c3Rows 1 1 1 = []
    ∧ setup_constraints c3Rows oneEmployee (fun _ => none) (fun _ => [])
        [] [] 1 1 1 0 [] [1] flAvailOnly = .ok []
    ∧ modelHolds allTrueAssign [] = true
    ∧ allTrueAssign (CVar.shift 0 0 0) = true := by
  refine ⟨rfl, rfl, rfl, rfl, rfl⟩

/-- Claim C5 (status: code_bug).  The claim says constraint assembly succeeds
for every combination of the toggle flags, in particular with the
consecutive-days-off group enabled while the work-indicator group is disabled.
In the code `work_e_d` is populated only by `add_work_indicator_constraints`,
so with that group disabled `add_consecutive_days_off_constraints` hits
`work_e_d[e]` with an empty dictionary and raises an uncaught `KeyError`:
at the failing input (one employee, two days, consecutive-days-off enabled,
work-indicator disabled) assembly aborts and the solver is never invoked. -/
theorem days_off_without_work_indicator_key_error :
    mainRun c5Inp flDaysOffNoIndicator = .failed (.keyErr 0 0)
    ∧ solverInvoked (mainRun c5Inp flDaysOffNoIndicator) = false := by
  refine ⟨rfl, rfl⟩

/-- Claim C8 (status: code_bug).  The claim says `config.py` defines a boolean
toggle for every constraint group so that the import at `solver.py` lines 8-21
succeeds.  In fact `config.py` defines only five toggles; the first imported
name it lacks is `ENABLE_AVAILABILITY` (with `ENABLE_MANAGER` and
`ENABLE_ONE_SKILL_PER_TIMESLOT` also missing), so the module import raises
`ImportError`. -/
theorem solver_config_import_fails :
    firstMissingImport = some "ENABLE_AVAILABILITY"
    ∧ solverConfigImports.all (fun n => configDefinedNames.contains n) = false
    ∧ ("ENABLE_MANAGER" ∈ configDefinedNames) = False
    ∧ ("ENABLE_ONE_SKILL_PER_TIMESLOT" ∈ configDefinedNames) = False := by
  refine ⟨rfl, rfl, by simp [configDefinedNames], by simp [configDefinedNames]⟩

/-- Claim C9 (status: confirmed).  Constraint assembly in the source iterates
over fixed ranges and insertion-ordered dictionaries, with no other state; in
the embedding the whole build is a pure function of the fetched tables, so two
builds from identical inputs yield the same allocated-variable count and the
same constraint count. -/
theorem build_counts_deterministic (inp₁ inp₂ : SolverInputs)
    (fl₁ fl₂ : AssembleFlags) (hinp : inp₁ = inp₂) (hfl : fl₁ = fl₂) :
    varCountOf inp₁.employees.length inp₁.numDays HOURS_BLOCKS fl₁
      = varCountOf inp₂.employees.length inp₂.numDays HOURS_BLOCKS fl₂
    ∧ constraintCountOf inp₁ fl₁ = constraintCountOf inp₂ fl₂ := by
  subst hinp; subst hfl; exact ⟨rfl, rfl⟩

/-- Witness for `build_counts_deterministic` at a concrete input with every
constraint group enabled. -/
theorem build_counts_deterministic_witness :
    varCountOf c9Inp.employees.length c9Inp.numDays HOURS_BLOCKS flAllGroups
      = varCountOf c9Inp.employees.length c9Inp.numDays HOURS_BLOCKS flAllGroups
    ∧ constraintCountOf c9Inp flAllGroups = constraintCountOf c9Inp flAllGroups :=
  build_counts_deterministic c9Inp c9Inp flAllGroups flAllGroups rfl rfl

/-- Counterexample to claim C1 as stated.  At a two-employee instance whose
only workload requirement is `(ts 1, skill 1) ↦ min 1, opt 1`, the assembled
model (workload group enabled) contains only the lower-bound constraint, and
the all-ones assignment is a solution assigning 2 eligible employees, above the
claimed hard cap `optAmount = 1`. -/
theorem workload_opt_cap_counterexample :
    setup_constraints [] [] c1Dict c1Skill oneTsRows [1] 2 1 1 1 [0] [0, 1]
      flWorkloadOnly = .ok c1Model
    ∧ modelHolds allTrueAssign c1Model = true
    ∧ c1Dict (1, 1) = some ⟨1, 1⟩
    ∧ assignedCount allTrueAssign 2 1 1 (c1Skill 1) 0 0 = 2
    ∧ ¬ ((2 : Int) ≤ 1) := by
  refine ⟨rfl, rfl, rfl, rfl, by decide⟩

/-- Counterexample to claim C2 as stated.  With two declared skills, the
one-skill-per-timeslot block sums two copies of the same boolean variable, so
the generated constraint `2·shift[0,0,0] ≤ 1` forces the variable to 0: the
all-ones assignment satisfies the model with the group disabled (which is
empty) but violates the model with the group enabled — the two feasible sets
differ. -/
theorem one_skill_not_noop_counterexample :
    setup_constraints [] [] c2Dict (fun _ => []) oneTsRows [1, 2] 1 1 1 1 []
      [0] flWorkloadOneSkill = .ok c2ModelOn
    ∧ setup_constraints [] [] c2Dict (fun _ => []) oneTsRows [1, 2] 1 1 1 1 []
      [0] flWorkloadOnly = .ok []
    ∧ modelHolds allTrueAssign [] = true
    ∧ modelHolds allTrueAssign c2ModelOn = false := by
  refine ⟨rfl, rfl, rfl, rfl⟩

/-- Counterexample to claim C6 as stated.  On a 3-hour day the assignment that
works hours 0 and 2 only has exactly two transitions (after hour 0 and before
hour 2), so it satisfies every transition-group constraint of the assembled
model, yet its extracted hour list `[0, 2]` is neither empty nor a contiguous
run. -/
theorem transition_gap_counterexample :
    setup_constraints [] [] (fun _ => none) (fun _ => []) [] [] 1 1 3 0 [] []
      flTransOnly = .ok (add_transition_constraints 1 1 3)
    ∧ modelHolds c6Assign (add_transition_constraints 1 1 3) = true
    ∧ extractHours c6Assign 0 0 3 = [0, 2]
    ∧ chainSucc (extractHours c6Assign 0 0 3) = false := by
  refine ⟨rfl, rfl, rfl, rfl⟩

/-- Counterexample to claim C7 as stated.  The claim says internal errors in a
constraint-assembly group are re-raised or surfaced, so assembly never proceeds
to the solve step after one.  At an input with a non-empty availability table,
the availability group raises a `KeyError` internally (it is caught and only
logged), assembly completes with the group's constraints silently dropped, and
`main` reaches `solver.Solve` with the empty model. -/
theorem assembly_error_swallowed_counterexample :
    availabilityCaughtError c7Inp.availRows = true
    ∧ mainRun c7Inp flAvailOnly = .solved []
    ∧ solverInvoked (mainRun c7Inp flAvailOnly) = true := by
  refine ⟨rfl, rfl, rfl⟩

/-- Claim C7, amended (status: corrected).  Internal errors in the availability
group are caught and logged but not re-raised: for any non-empty availability
table the group raises a `KeyError` internally (the schema has no `Day`/`Hour`
columns), the blanket handler swallows it, and the group returns normally with
no constraints added, so assembly proceeds; likewise the hour group catches
per-employee errors and continues. -/
theorem availability_error_logged_and_swallowed (rows : List AvailabilityRow)
    (E D H : Nat) (hne : rows ≠ []) :
    availabilityCaughtError rows = true
    ∧ add_availability_constraints rows E D H = [] := by
  cases rows with
  | nil => exact absurd rfl hne
  | cons r rest => exact ⟨rfl, rfl⟩

/-- Witness for `availability_error_logged_and_swallowed` at the one-row
table. -/
theorem availability_error_logged_and_swallowed_witness :
    availabilityCaughtError c3Rows = true
    ∧ add_availability_constraints c3Rows 2 2 2 = [] :=
  availability_error_logged_and_swallowed c3Rows 2 2 2 (by decide)

/-! ### Lemmas about the workload group loops -/

theorem skillsLoop_ok_mem {wd : Nat × Nat → Option WorkloadReq}
    {se : Nat → List Nat} {E D H ts day hour : Nat} :
    ∀ {ss : List Nat} {L : List LinCon},
    skillsLoop wd se E D H ts day hour ss = .ok L →
    ∀ {s : Nat}, s ∈ ss →
    ∃ cs, skillWorkloadCons wd se E D H ts day hour s = .ok cs
      ∧ ∀ c ∈ cs, c ∈ L := by
  intro ss
  induction ss with
  | nil => intro L _ s hs; exact absurd hs (List.not_mem_nil s)
  | cons a rest ih =>
      intro L hL s hs
      simp only [skillsLoop] at hL
      cases ha : skillWorkloadCons wd se E D H ts day hour a with
      | error err => rw [ha] at hL; exact absurd hL (by simp)
      | ok cs =>
          rw [ha] at hL
          cases hr : skillsLoop wd se E D H ts day hour rest with
          | error err => rw [hr] at hL; exact absurd hL (by simp)
          | ok rs =>
              rw [hr] at hL
              have hLeq : cs ++ rs = L := by
                have := hL; simpa using this
              rcases List.mem_cons.mp hs with h | h
              · subst h
                exact ⟨cs, ha, fun c hc => hLeq ▸ List.mem_append_left rs hc⟩
              · obtain ⟨cs2, h1, h2⟩ := ih hr h
                exact ⟨cs2, h1,
                  fun c hc => hLeq ▸ List.mem_append_right cs (h2 c hc)⟩

theorem skillsLoop_error_src {wd : Nat × Nat → Option WorkloadReq}
    {se : Nat → List Nat} {E D H ts day hour : Nat} :
    ∀ {ss : List Nat} {err : AssembleErr},
    skillsLoop wd se E D H ts day hour ss = .error err →
    ∃ s ∈ ss, skillWorkloadCons wd se E D H ts day hour s = .error err := by
  intro ss
  induction ss with
  | nil => intro err h; exact absurd h (by simp [skillsLoop])
  | cons a rest ih =>
      intro err h
      simp only [skillsLoop] at h
      cases ha : skillWorkloadCons wd se E D H ts day hour a with
      | error e0 =>
          rw [ha] at h
          have : e0 = err := by simpa using h
          exact ⟨a, List.mem_cons_self a rest, this ▸ ha⟩
      | ok cs =>
          rw [ha] at h
          cases hr : skillsLoop wd se E D H ts day hour rest with
          | error e0 =>
              rw [hr] at h
              have : e0 = err := by simpa using h
              obtain ⟨s, hs, h2⟩ := ih (this ▸ hr)
              exact ⟨s, List.mem_cons_of_mem a hs, h2⟩
          | ok rs => rw [hr] at h; exact absurd h (by simp)

theorem skillWorkloadCons_error_shape {wd : Nat × Nat → Option WorkloadReq}
    {se : Nat → List Nat} {E D H ts day hour s : Nat} {err : AssembleErr}
    (h : skillWorkloadCons wd se E D H ts day hour s = .error err) :
    ∃ w, err = .workloadErr ⟨s, ts, w.minAmount⟩ ∧ wd (ts, s) = some w
      ∧ (se s).isEmpty = true ∧ 0 < w.minAmount := by
  unfold skillWorkloadCons at h
  cases hw : wd (ts, s) with
  | none => rw [hw] at h; exact absurd h (by simp)
  | some w =>
      rw [hw] at h
      simp only at h
      by_cases h1 : (se s).isEmpty
      · rw [if_pos h1] at h
        by_cases h2 : 0 < w.minAmount
        · rw [if_pos h2] at h
          have : AssembleErr.workloadErr ⟨s, ts, w.minAmount⟩ = err := by
            simpa using h
          exact ⟨w, this.symm, rfl, h1, h2⟩
        · rw [if_neg h2] at h; exact absurd h (by simp)
      · rw [if_neg h1] at h
        by_cases h3 : (eligibleShiftTerms E D H (se s) day hour).isEmpty
        · rw [if_pos h3] at h; exact absurd h (by simp)
        · rw [if_neg h3] at h; exact absurd h (by simp)

theorem tsLoop_ok_skillBlock {wd : Nat × Nat → Option WorkloadReq}
    {se : Nat → List Nat} {tsRows : List TimeslotRow} {skills : List Nat}
    {E D H : Nat} {mIds aIds : List Nat} {osF mgF : Bool} :
    ∀ {tss : List Nat} {L : List LinCon},
    tsLoop wd se tsRows skills E D H mIds aIds osF mgF tss = .ok L →
    ∀ {ts : Nat} {row : TimeslotRow}, ts ∈ tss →
    tsRows.find? (fun r => r.timeslotID == ts) = some row →
    ∃ B, skillsLoop wd se E D H ts row.day row.hour skills = .ok B
      ∧ ∀ c ∈ B, c ∈ L := by
  intro tss
  induction tss with
  | nil => intro L _ ts row hts _; exact absurd hts (List.not_mem_nil ts)
  | cons t rest ih =>
      intro L hL ts row hts hrow
      simp only [tsLoop] at hL
      rcases List.mem_cons.mp hts with heq | hmem
      · subst heq
        rw [hrow] at hL
        simp only [] at hL
        cases hsk : skillsLoop wd se E D H ts row.day row.hour skills with
        | error err => rw [hsk] at hL; exact absurd hL (by simp)
        | ok sk =>
            rw [hsk] at hL
            cases hrest : tsLoop wd se tsRows skills E D H mIds aIds osF mgF
                rest with
            | error err => rw [hrest] at hL; exact absurd hL (by simp)
            | ok restCons =>
                rw [hrest] at hL
                refine ⟨sk, hsk ▸ rfl, fun c hc => ?_⟩
                have hLeq :
                    sk ++ (if osF then
                        oneSkillCons skills aIds E D H row.day row.hour
                      else [])
                    ++ (if mgF then
                        managerCons wd skills mIds E D H ts row.day row.hour
                      else [])
                    ++ restCons = L := by
                  simpa using hL
                rw [← hLeq]
                exact List.mem_append_left _ (List.mem_append_left _
                  (List.mem_append_left _ hc))
      · cases hfind : tsRows.find? (fun r => r.timeslotID == t) with
        | none =>
            rw [hfind] at hL
            simp only [] at hL
            exact ih hL hmem hrow
        | some row2 =>
            rw [hfind] at hL
            simp only [] at hL
            cases hsk : skillsLoop wd se E D H t row2.day row2.hour skills with
            | error err => rw [hsk] at hL; exact absurd hL (by simp)
            | ok sk =>
                rw [hsk] at hL
                cases hrest : tsLoop wd se tsRows skills E D H mIds aIds osF
                    mgF rest with
                | error err => rw [hrest] at hL; exact absurd hL (by simp)
                | ok restCons =>
                    rw [hrest] at hL
                    have hLeq :
                        sk ++ (if osF then
                            oneSkillCons skills aIds E D H row2.day row2.hour
                          else [])
                        ++ (if mgF then
                            managerCons wd skills mIds E D H t row2.day
                              row2.hour
                          else [])
                        ++ restCons = L := by
                      simpa using hL
                    obtain ⟨B, h1, h2⟩ := ih hrest hmem hrow
                    refine ⟨B, h1, fun c hc => ?_⟩
                    rw [← hLeq]
                    exact List.mem_append_right _ (h2 c hc)

theorem tsLoop_error_src {wd : Nat × Nat → Option WorkloadReq}
    {se : Nat → List Nat} {tsRows : List TimeslotRow} {skills : List Nat}
    {E D H : Nat} {mIds aIds : List Nat} {osF mgF : Bool} :
    ∀ {tss : List Nat} {err : AssembleErr},
    tsLoop wd se tsRows skills E D H mIds aIds osF mgF tss = .error err →
    ∃ ts ∈ tss, ∃ row, tsRows.find? (fun r => r.timeslotID == ts) = some row
      ∧ skillsLoop wd se E D H ts row.day row.hour skills = .error err := by
  intro tss
  induction tss with
  | nil => intro err h; exact absurd h (by simp [tsLoop])
  | cons t rest ih =>
      intro err h
      simp only [tsLoop] at h
      cases hfind : tsRows.find? (fun r => r.timeslotID == t) with
      | none =>
          rw [hfind] at h
          simp only [] at h
          obtain ⟨ts, h1, row, h2, h3⟩ := ih h
          exact ⟨ts, List.mem_cons_of_mem t h1, row, h2, h3⟩
      | some row =>
          rw [hfind] at h
          simp only [] at h
          cases hsk : skillsLoop wd se E D H t row.day row.hour skills with
          | error e0 =>
              rw [hsk] at h
              have : e0 = err := by simpa using h
              exact ⟨t, List.mem_cons_self t rest, row, hfind, this ▸ hsk⟩
          | ok sk =>
              rw [hsk] at h
              cases hrest : tsLoop wd se tsRows skills E D H mIds aIds osF mgF
                  rest with
              | error e0 =>
                  rw [hrest] at h
                  have : e0 = err := by simpa using h
                  obtain ⟨ts, h1, row2, h2, h3⟩ := ih (this ▸ hrest)
                  exact ⟨ts, List.mem_cons_of_mem t h1, row2, h2, h3⟩
              | ok restCons => rw [hrest] at h; exact absurd h (by simp)

/-! ### Lemmas about the consecutive-days-off group and `setup_constraints` -/

theorem mem_allWorkKeys {E D e d : Nat} :
    (e, d) ∈ allWorkKeys E D ↔ e < E ∧ d < D := by
  simp only [allWorkKeys, List.mem_flatMap, List.mem_map, List.mem_range,
    Prod.mk.injEq]
  constructor
  · rintro ⟨a, ha, b, hb, h1, h2⟩; exact ⟨h1 ▸ ha, h2 ▸ hb⟩
  · rintro ⟨h1, h2⟩; exact ⟨e, h1, d, h2, rfl, rfl⟩

theorem cdoPairs_ok {keys : List (Nat × Nat)} {e : Nat} :
    ∀ {ds : List Nat},
    (∀ d ∈ ds, (e, d) ∈ keys ∧ (e, d + 1) ∈ keys) →
    ∃ L, cdoPairs keys e ds = .ok L := by
  intro ds
  induction ds with
  | nil => intro _; exact ⟨[], rfl⟩
  | cons d rest ih =>
      intro hmem
      obtain ⟨h1, h2⟩ := hmem d (List.mem_cons_self d rest)
      obtain ⟨L, hL⟩ := ih (fun x hx => hmem x (List.mem_cons_of_mem d hx))
      have hstep : cdoPairs keys e (d :: rest) =
          .ok ([⟨[(1, CVar.workInd e d)], CmpOp.eq, 0,
                 some (CVar.bothOff e d, true)⟩,
                ⟨[(1, CVar.workInd e (d+1))], CmpOp.eq, 0,
                 some (CVar.bothOff e d, true)⟩] ++ L) := by
        simp only [cdoPairs, if_pos h1, if_pos h2, hL]
      exact ⟨_, hstep⟩

theorem cdoEmployees_ok {keys : List (Nat × Nat)} {D : Nat} :
    ∀ {es : List Nat},
    (∀ e ∈ es, ∀ d ∈ List.range (D - 1), (e, d) ∈ keys ∧ (e, d + 1) ∈ keys) →
    ∃ L, cdoEmployees keys D es = .ok L := by
  intro es
  induction es with
  | nil => intro _; exact ⟨[], rfl⟩
  | cons e rest ih =>
      intro hmem
      obtain ⟨L1, hL1⟩ := cdoPairs_ok (hmem e (List.mem_cons_self e rest))
      obtain ⟨L2, hL2⟩ := ih (fun x hx => hmem x (List.mem_cons_of_mem e hx))
      have hstep : cdoEmployees keys D (e :: rest) =
          .ok (L1
            ++ [⟨(List.range (D - 1)).map
                  (fun d => ((1 : Int), CVar.bothOff e d)),
                 CmpOp.ge, 1, none⟩]
            ++ L2) := by
        simp only [cdoEmployees, hL1, hL2]
      exact ⟨_, hstep⟩

/-- With the work-indicator group enabled first (so that `work_e_d` has a key
for every `(e, d)` of the grid), the consecutive-days-off group completes
without error. -/
theorem cdo_ok_with_full_keys (E D : Nat) :
    ∃ L, add_consecutive_days_off_constraints (allWorkKeys E D) E D = .ok L := by
  apply cdoEmployees_ok
  intro e he d hd
  have he2 : e < E := List.mem_range.mp he
  have hd2 : d < D - 1 := List.mem_range.mp hd
  exact ⟨mem_allWorkKeys.mpr ⟨he2, by omega⟩,
    mem_allWorkKeys.mpr ⟨he2, by omega⟩⟩

/-- Claim C4 (status: confirmed).  If some `(timeslot, skill)` pair has a
declared workload requirement with a positive minimum, the skill has no
eligible employees, and the timeslot id resolves to a row of the timeslot
table within the iterated id range `1..num_timeslots` (guaranteed for the
dense 1-based ids the foreign keys of the schema produce), then constraint
assembly raises the `ValueError` of `solver.py` lines 259-262 — an error
carrying a skill id and timeslot id whose requirement indeed has a positive
minimum and no eligible employees — and `main` catches it before
`solver.Solve` is ever reached.  The hypothesis on the consecutive-days-off
flag only excludes the flag combination that crashes assembly earlier (see the
claim about flag combinations). -/
theorem workload_structural_infeasibility_raised (inp : SolverInputs)
    (fl : AssembleFlags) (ts skill : Nat) (row : TimeslotRow) (w : WorkloadReq)
    (hwl : fl.enableWorkload = true)
    (hdep : fl.enableConsecutiveDaysOff = true → fl.enableWorkIndicator = true)
    (hw : inp.workloadDict (ts, skill) = some w)
    (hmin : 0 < w.minAmount)
    (helig : (inp.skillToEmployees skill).isEmpty = true)
    (hsk : skill ∈ inp.skills)
    (hrow : inp.tsRows.find? (fun r => r.timeslotID == ts) = some row)
    (hts1 : 1 ≤ ts) (hts2 : ts < 1 + inp.tsRows.length) :
    ∃ err : WorkloadInfeasible,
      mainRun inp fl = .failed (.workloadErr err)
      ∧ (∃ w2, inp.workloadDict (err.timeslotID, err.skillID) = some w2
          ∧ err.minAmount = w2.minAmount ∧ 0 < w2.minAmount)
      ∧ (inp.skillToEmployees err.skillID).isEmpty = true
      ∧ solverInvoked (mainRun inp fl) = false := by
  have herr : skillWorkloadCons inp.workloadDict inp.skillToEmployees
      inp.employees.length inp.numDays HOURS_BLOCKS ts row.day row.hour skill
      = .error (.workloadErr ⟨skill, ts, w.minAmount⟩) := by
    simp only [skillWorkloadCons, hw, helig, if_pos hmin, if_true]
  cases hR : add_workload_constraints inp.workloadDict inp.skillToEmployees
      inp.tsRows inp.skills inp.tsRows.length inp.employees.length inp.numDays
      HOURS_BLOCKS inp.managerIds inp.allEmployeeIds
      fl.enableOneSkillPerTimeslot fl.enableManager with
  | ok L =>
      exfalso
      have hRts : tsLoop inp.workloadDict inp.skillToEmployees inp.tsRows
          inp.skills inp.employees.length inp.numDays HOURS_BLOCKS
          inp.managerIds inp.allEmployeeIds fl.enableOneSkillPerTimeslot
          fl.enableManager (List.range' 1 inp.tsRows.length) = .ok L := hR
      have htsmem : ts ∈ List.range' 1 inp.tsRows.length :=
        List.mem_range'_1.mpr ⟨hts1, hts2⟩
      obtain ⟨B, hB, _⟩ := tsLoop_ok_skillBlock hRts htsmem hrow
      obtain ⟨cs, hcs, _⟩ := skillsLoop_ok_mem hB hsk
      rw [herr] at hcs
      exact absurd hcs (by simp)
  | error err0 =>
      have hRts : tsLoop inp.workloadDict inp.skillToEmployees inp.tsRows
          inp.skills inp.employees.length inp.numDays HOURS_BLOCKS
          inp.managerIds inp.allEmployeeIds fl.enableOneSkillPerTimeslot
          fl.enableManager (List.range' 1 inp.tsRows.length) = .error err0 := hR
      obtain ⟨ts2, _, row2, _, hskLoop⟩ := tsLoop_error_src hRts
      obtain ⟨s2, _, hcons2⟩ := skillsLoop_error_src hskLoop
      obtain ⟨w2, hshape, hw2, helig2, hmin2⟩ :=
        skillWorkloadCons_error_shape hcons2
      have hcdo : ∃ c, (if fl.enableConsecutiveDaysOff then
          add_consecutive_days_off_constraints
            (if fl.enableWorkIndicator then
              allWorkKeys inp.employees.length inp.numDays else [])
            inp.employees.length inp.numDays
        else .ok []) = .ok c := by
        cases hflag : fl.enableConsecutiveDaysOff with
        | false => exact ⟨[], by simp⟩
        | true =>
            have hwi : fl.enableWorkIndicator = true := hdep hflag
            simp only [if_true, hwi]
            exact cdo_ok_with_full_keys inp.employees.length inp.numDays
      obtain ⟨c, hc⟩ := hcdo
      have hwlif : (if fl.enableWorkload then
          add_workload_constraints inp.workloadDict inp.skillToEmployees
            inp.tsRows inp.skills inp.tsRows.length inp.employees.length
            inp.numDays HOURS_BLOCKS inp.managerIds inp.allEmployeeIds
            fl.enableOneSkillPerTimeslot fl.enableManager
        else .ok []) = .error err0 := by
        rw [hwl]; simpa using hR
      have hsetup : setup_constraints inp.availRows inp.employees
          inp.workloadDict inp.skillToEmployees inp.tsRows inp.skills
          inp.employees.length inp.numDays HOURS_BLOCKS inp.tsRows.length
          inp.managerIds inp.allEmployeeIds fl = .error err0 := by
        simp only [setup_constraints]
        rw [hc]
        simp only []
        rw [hwlif]
      have hmain : mainRun inp fl = .failed err0 := by
        simp only [mainRun]
        rw [hsetup]
      subst hshape
      exact ⟨⟨s2, ts2, w2.minAmount⟩, hmain, ⟨w2, hw2, rfl, hmin2⟩, helig2,
        by rw [hmain]; rfl⟩

/-- Witness for `workload_structural_infeasibility_raised` at the C4 inputs:
timeslot 1 / skill 1 with minimum 2 and no eligible employee. -/
theorem workload_structural_infeasibility_raised_witness :
    ∃ err : WorkloadInfeasible,
      mainRun c4Inp flWorkloadOnly = .failed (.workloadErr err)
      ∧ (∃ w2, c4Inp.workloadDict (err.timeslotID, err.skillID) = some w2
          ∧ err.minAmount = w2.minAmount ∧ 0 < w2.minAmount)
      ∧ (c4Inp.skillToEmployees err.skillID).isEmpty = true
      ∧ solverInvoked (mainRun c4Inp flWorkloadOnly) = false :=
  workload_structural_infeasibility_raised c4Inp flWorkloadOnly 1 1 ⟨1, 1, 0, 0⟩
    ⟨2, 3⟩ rfl (fun h => by simp [flWorkloadOnly] at h) rfl (by decide) rfl
    (by decide) rfl (by decide) (by decide)

/-- Decomposition of a successful `setup_constraints` run into its group
parts. -/
theorem setup_ok_parts {availRows : List AvailabilityRow}
    {emps : List EmployeeRow} {wd : Nat × Nat → Option WorkloadReq}
    {se : Nat → List Nat} {tsRows : List TimeslotRow} {skills : List Nat}
    {E D H nTs : Nat} {mIds aIds : List Nat} {fl : AssembleFlags}
    {m : List LinCon}
    (h : setup_constraints availRows emps wd se tsRows skills E D H nTs mIds
      aIds fl = .ok m) :
    ∃ cdo wl,
      (if fl.enableConsecutiveDaysOff then
          add_consecutive_days_off_constraints
            (if fl.enableWorkIndicator then allWorkKeys E D else []) E D
        else .ok []) = .ok cdo
      ∧ (if fl.enableWorkload then
          add_workload_constraints wd se tsRows skills nTs E D H mIds aIds
            fl.enableOneSkillPerTimeslot fl.enableManager
        else .ok []) = .ok wl
      ∧ m = (if fl.enableAvailability then
              add_availability_constraints availRows E D H else [])
          ++ (if fl.enableWorkIndicator then
              add_work_indicator_constraints E D H else [])
          ++ (if fl.enableTransition then
              add_transition_constraints E D H else [])
          ++ cdo
          ++ (if fl.enableHours then add_hour_constraints emps E D H else [])
          ++ wl := by
  simp only [setup_constraints] at h
  cases hcdo : (if fl.enableConsecutiveDaysOff then
      add_consecutive_days_off_constraints
        (if fl.enableWorkIndicator then allWorkKeys E D else []) E D
    else .ok []) with
  | error err => rw [hcdo] at h; exact absurd h (by simp)
  | ok cdo =>
      rw [hcdo] at h
      simp only [] at h
      cases hwl : (if fl.enableWorkload then
          add_workload_constraints wd se tsRows skills nTs E D H mIds aIds
            fl.enableOneSkillPerTimeslot fl.enableManager
        else .ok []) with
      | error err => rw [hwl] at h; exact absurd h (by simp)
      | ok wl =>
          rw [hwl] at h
          simp only [] at h
          refine ⟨cdo, wl, rfl, rfl, ?_⟩
          have := h
          simp only [Except.ok.injEq] at this
          exact this.symm

theorem ge_of_conHolds {σ : CAssign} {terms : List (Int × CVar)} {bound : Int}
    (h : conHolds σ ⟨terms, CmpOp.ge, bound, none⟩ = true) :
    bound ≤ evalTerms σ terms := by
  simpa [conHolds, litOk, holdsCmp] using h

/-- Converse of `setup_ok_parts`: assemble a successful run from successful
group parts. -/
theorem setup_ok_of_parts (fl : AssembleFlags) {availRows : List AvailabilityRow}
    {emps : List EmployeeRow} {wd : Nat × Nat → Option WorkloadReq}
    {se : Nat → List Nat} {tsRows : List TimeslotRow} {skills : List Nat}
    {E D H nTs : Nat} {mIds aIds : List Nat}
    {cdo wl : List LinCon}
    (hcdo : (if fl.enableConsecutiveDaysOff then
        add_consecutive_days_off_constraints
          (if fl.enableWorkIndicator then allWorkKeys E D else []) E D
      else .ok []) = .ok cdo)
    (hwlif : (if fl.enableWorkload then
        add_workload_constraints wd se tsRows skills nTs E D H mIds aIds
          fl.enableOneSkillPerTimeslot fl.enableManager
      else .ok []) = .ok wl) :
    setup_constraints availRows emps wd se tsRows skills E D H nTs mIds aIds fl
      = .ok ((if fl.enableAvailability then
              add_availability_constraints availRows E D H else [])
          ++ (if fl.enableWorkIndicator then
              add_work_indicator_constraints E D H else [])
          ++ (if fl.enableTransition then
              add_transition_constraints E D H else [])
          ++ cdo
          ++ (if fl.enableHours then add_hour_constraints emps E D H else [])
          ++ wl) := by
  simp only [setup_constraints]
  rw [hcdo]
  simp only []
  rw [hwlif]

/-- When the declared skills list has at most one element, every per-employee
constraint of the one-skill-per-timeslot block is satisfied by every
assignment: the block sums at most one copy of a boolean variable and compares
with 1. -/
theorem oneSkillCons_all_true {skills : List Nat} (hs : skills.length ≤ 1)
    (aIds : List Nat) (E D H day hour : Nat) (σ : CAssign) :
    modelHolds σ (oneSkillCons skills aIds E D H day hour) = true := by
  induction aIds with
  | nil => rfl
  | cons e rest ih =>
      have hcons : oneSkillCons skills (e :: rest) E D H day hour =
          (let assigns : List (Int × CVar) :=
            if gridMem E D H e day hour then
              skills.map (fun _ => ((1 : Int), CVar.shift e day hour))
            else []
          if assigns.isEmpty then []
          else [⟨assigns, CmpOp.le, 1, none⟩])
          ++ oneSkillCons skills rest E D H day hour := by
        simp only [oneSkillCons, List.flatMap_cons]
      rw [hcons, modelHolds_append, Bool.and_eq_true]
      refine ⟨?_, ih⟩
      cases hg : gridMem E D H e day hour with
      | false => simp [modelHolds]
      | true =>
          match skills, hs with
          | [], _ => simp [modelHolds]
          | [s], _ =>
              cases hx : σ (CVar.shift e day hour) with
              | false =>
                  simp [modelHolds, conHolds, litOk, holdsCmp, evalTerms, b2i,
                    hx]
              | true =>
                  simp [modelHolds, conHolds, litOk, holdsCmp, evalTerms, b2i,
                    hx]

/-- With at most one declared skill, running the timeslot loop with the
one-skill flag on or off yields equisatisfiable constraint lists (the flag-off
run always succeeds when the flag-on run does). -/
theorem tsLoop_oneSkill_equiv {wd : Nat × Nat → Option WorkloadReq}
    {se : Nat → List Nat} {tsRows : List TimeslotRow} {skills : List Nat}
    {E D H : Nat} {mIds aIds : List Nat} {mgF : Bool}
    (hs : skills.length ≤ 1) :
    ∀ {tss : List Nat} {Lt : List LinCon},
    tsLoop wd se tsRows skills E D H mIds aIds true mgF tss = .ok Lt →
    ∃ Lf, tsLoop wd se tsRows skills E D H mIds aIds false mgF tss = .ok Lf
      ∧ ∀ σ, modelHolds σ Lt = modelHolds σ Lf := by
  intro tss
  induction tss with
  | nil =>
      intro Lt hL
      have hLt : [] = Lt := by simpa [tsLoop] using hL
      exact ⟨[], rfl, fun σ => by rw [← hLt]⟩
  | cons t rest ih =>
      intro Lt hL
      simp only [tsLoop] at hL
      cases hfind : tsRows.find? (fun r => r.timeslotID == t) with
      | none =>
          rw [hfind] at hL
          simp only [] at hL
          obtain ⟨Lf, hLf, hequiv⟩ := ih hL
          refine ⟨Lf, ?_, hequiv⟩
          simp only [tsLoop, hfind]
          exact hLf
      | some row =>
          rw [hfind] at hL
          simp only [] at hL
          cases hsk : skillsLoop wd se E D H t row.day row.hour skills with
          | error err => rw [hsk] at hL; exact absurd hL (by simp)
          | ok sk =>
              rw [hsk] at hL
              cases hrest : tsLoop wd se tsRows skills E D H mIds aIds true
                  mgF rest with
              | error err => rw [hrest] at hL; exact absurd hL (by simp)
              | ok rT =>
                  rw [hrest] at hL
                  simp only [if_true] at hL
                  have hLt : sk
                      ++ oneSkillCons skills aIds E D H row.day row.hour
                      ++ (if mgF then
                          managerCons wd skills mIds E D H t row.day row.hour
                        else [])
                      ++ rT = Lt := by
                    simpa using hL
                  obtain ⟨rF, hrF, hequiv⟩ := ih hrest
                  have hgoal : tsLoop wd se tsRows skills E D H mIds aIds
                      false mgF (t :: rest)
                      = .ok (sk ++ []
                        ++ (if mgF then
                            managerCons wd skills mIds E D H t row.day row.hour
                          else [])
                        ++ rF) := by
                    simp only [tsLoop, hfind, hsk, hrF, Bool.false_eq_true,
                      if_false]
                  refine ⟨_, hgoal, fun σ => ?_⟩
                  rw [← hLt]
                  simp [modelHolds_append, oneSkillCons_all_true hs, hequiv σ]

/-- Claim C2, amended (status: corrected).  When the declared skills list has
at most one element, enabling the one-skill-per-timeslot group does not change
the feasible set: its constraints sum at most one copy of the (boolean,
skill-agnostic) shift variable and are automatically satisfied.  With two or
more declared skills the block's repeated summation of the same variable makes
`k·shift[e,day,hour] ≤ 1` force the variable to 0, strictly shrinking the
feasible set — see the counterexample. -/
theorem one_skill_group_noop_when_single_skill
    (availRows : List AvailabilityRow) (emps : List EmployeeRow)
    (wd : Nat × Nat → Option WorkloadReq) (se : Nat → List Nat)
    (tsRows : List TimeslotRow) (skills : List Nat) (E D H nTs : Nat)
    (mIds aIds : List Nat) (fl : AssembleFlags) (Lt : List LinCon)
    (hs : skills.length ≤ 1)
    (hos : fl.enableOneSkillPerTimeslot = true)
    (hset : setup_constraints availRows emps wd se tsRows skills E D H nTs
      mIds aIds fl = .ok Lt) :
    ∃ Lf, setup_constraints availRows emps wd se tsRows skills E D H nTs mIds
        aIds { fl with enableOneSkillPerTimeslot := false } = .ok Lf
      ∧ ∀ σ, modelHolds σ Lt = modelHolds σ Lf := by
  obtain ⟨cdo, wl, hcdo, hwlif, hm⟩ := setup_ok_parts hset
  by_cases hflw : fl.enableWorkload = true
  · rw [hflw] at hwlif
    simp only [if_true] at hwlif
    rw [hos] at hwlif
    obtain ⟨wlF, hwlF, hequiv⟩ := tsLoop_oneSkill_equiv hs hwlif
    have hwlif2 : (if fl.enableWorkload then
        add_workload_constraints wd se tsRows skills nTs E D H mIds aIds
          false fl.enableManager
      else .ok []) = .ok wlF := by
      rw [hflw]
      simp only [if_true]
      exact hwlF
    refine ⟨_, setup_ok_of_parts { fl with enableOneSkillPerTimeslot := false }
      hcdo hwlif2, fun σ => ?_⟩
    rw [hm]
    show modelHolds σ ((if fl.enableAvailability then
            add_availability_constraints availRows E D H else [])
        ++ (if fl.enableWorkIndicator then
            add_work_indicator_constraints E D H else [])
        ++ (if fl.enableTransition then
            add_transition_constraints E D H else [])
        ++ cdo
        ++ (if fl.enableHours then add_hour_constraints emps E D H else [])
        ++ wl)
      = modelHolds σ ((if fl.enableAvailability then
            add_availability_constraints availRows E D H else [])
        ++ (if fl.enableWorkIndicator then
            add_work_indicator_constraints E D H else [])
        ++ (if fl.enableTransition then
            add_transition_constraints E D H else [])
        ++ cdo
        ++ (if fl.enableHours then add_hour_constraints emps E D H else [])
        ++ wlF)
    simp only [modelHolds_append]
    rw [hequiv σ]
  · have hflw2 : fl.enableWorkload = false := by
      cases hb : fl.enableWorkload
      · rfl
      · exact absurd hb hflw
    rw [hflw2] at hwlif
    simp only [Bool.false_eq_true, if_false] at hwlif
    have hwleq : ([] : List LinCon) = wl := by simpa using hwlif
    have hwlif2 : (if fl.enableWorkload then
        add_workload_constraints wd se tsRows skills nTs E D H mIds aIds
          false fl.enableManager
      else .ok []) = .ok wl := by
      rw [hflw2]
      simp only [Bool.false_eq_true, if_false]
      rw [hwleq]
    refine ⟨_, setup_ok_of_parts { fl with enableOneSkillPerTimeslot := false }
      hcdo hwlif2, fun σ => ?_⟩
    rw [hm]

/-- Witness for `one_skill_group_noop_when_single_skill` at a single-skill
instance. -/
theorem one_skill_group_noop_when_single_skill_witness :
    ∃ Lf, setup_constraints [] [] c2wDict c2wSe oneTsRows [1] 1 1 1 1 [] [0]
        { flWorkloadOneSkill with enableOneSkillPerTimeslot := false } = .ok Lf
      ∧ ∀ σ, modelHolds σ c2wModel = modelHolds σ Lf :=
  one_skill_group_noop_when_single_skill [] [] c2wDict c2wSe oneTsRows [1]
    1 1 1 1 [] [0] flWorkloadOneSkill c2wModel (by decide) rfl rfl

/-- Claim C1, amended (status: corrected).  In any solution of a successfully
assembled model with the workload group enabled, each `(timeslot, skill)` pair
with a declared requirement whose eligible list is non-empty and contributes at
least one grid variable has at least `minAmount` eligible employees assigned.
The source adds only this lower bound; nothing bounds the count by `optAmount`
(line 280 is a TODO), as the counterexample shows. -/
theorem workload_min_lower_bound
    (availRows : List AvailabilityRow) (emps : List EmployeeRow)
    (wd : Nat × Nat → Option WorkloadReq) (se : Nat → List Nat)
    (tsRows : List TimeslotRow) (skills : List Nat) (E D H nTs : Nat)
    (mIds aIds : List Nat) (fl : AssembleFlags) (m : List LinCon)
    (σ : CAssign) (ts skill : Nat) (row : TimeslotRow) (w : WorkloadReq)
    (hset : setup_constraints availRows emps wd se tsRows skills E D H nTs
      mIds aIds fl = .ok m)
    (hfl : fl.enableWorkload = true)
    (hσ : modelHolds σ m = true)
    (hts1 : 1 ≤ ts) (hts2 : ts < 1 + nTs)
    (hrow : tsRows.find? (fun r => r.timeslotID == ts) = some row)
    (hsk : skill ∈ skills)
    (hw : wd (ts, skill) = some w)
    (helig : (se skill).isEmpty = false)
    (hterms : (eligibleShiftTerms E D H (se skill) row.day row.hour).isEmpty
      = false) :
    w.minAmount ≤ assignedCount σ E D H (se skill) row.day row.hour := by
  obtain ⟨cdo, wl, hcdo, hwlif, hm⟩ := setup_ok_parts hset
  rw [hfl] at hwlif
  simp only [if_true] at hwlif
  have hwlts : tsLoop wd se tsRows skills E D H mIds aIds
      fl.enableOneSkillPerTimeslot fl.enableManager (List.range' 1 nTs)
      = .ok wl := hwlif
  obtain ⟨B, hB, hBsub⟩ :=
    tsLoop_ok_skillBlock hwlts (List.mem_range'_1.mpr ⟨hts1, hts2⟩) hrow
  obtain ⟨cs, hcs, hcssub⟩ := skillsLoop_ok_mem hB hsk
  have hcsval : skillWorkloadCons wd se E D H ts row.day row.hour skill
      = .ok [⟨eligibleShiftTerms E D H (se skill) row.day row.hour, CmpOp.ge,
          w.minAmount, none⟩] := by
    simp [skillWorkloadCons, hw, helig, hterms]
  rw [hcsval] at hcs
  have hcseq : [(⟨eligibleShiftTerms E D H (se skill) row.day row.hour,
      CmpOp.ge, w.minAmount, none⟩ : LinCon)] = cs := by
    simpa using hcs
  have hcm : (⟨eligibleShiftTerms E D H (se skill) row.day row.hour, CmpOp.ge,
      w.minAmount, none⟩ : LinCon) ∈ m := by
    rw [hm]
    exact List.mem_append_right _
      (hBsub _ (hcssub _ (hcseq ▸ List.mem_cons_self _ [])))
  exact ge_of_conHolds (conHolds_of_modelHolds hσ hcm)

/-- Witness for `workload_min_lower_bound` at the C1 instance: the requirement
`min 1` is enforced on the all-ones solution. -/
theorem workload_min_lower_bound_witness :
    (1 : Int) ≤ assignedCount allTrueAssign 2 1 1 (c1Skill 1) 0 0 :=
  workload_min_lower_bound [] [] c1Dict c1Skill oneTsRows [1] 2 1 1 1 [0]
    [0, 1] flWorkloadOnly c1Model allTrueAssign 1 1 ⟨1, 1, 0, 0⟩ ⟨1, 1⟩
    rfl rfl rfl (by decide) (by decide) rfl (by decide) rfl rfl rfl

/-! ### Combinatorial lemmas about day profiles with at most two changes -/

theorem changesUpTo_zero_all_eq {p : Nat → Bool} :
    ∀ {m : Nat}, changesUpTo p m = 0 → ∀ h ≤ m, p h = p 0 := by
  intro m
  induction m with
  | zero => intro _ h hh; interval_cases h; rfl
  | succ n ih =>
      intro hch h hh
      have hsplit : changesUpTo p n = 0
          ∧ (if p n == p (n + 1) then 0 else 1) = 0 := by
        have := hch
        simp only [changesUpTo] at this
        omega
      rcases Nat.le_succ_iff.mp hh with h1 | h1
      · exact ih hsplit.1 h h1
      · subst h1
        have hbeq : (p n == p (n + 1)) = true := by
          by_contra hc
          rw [if_neg (by simpa using hc)] at hsplit
          exact absurd hsplit.2 (by simp)
        have hpn : p n = p 0 := ih hsplit.1 n (Nat.le_refl n)
        rw [← (beq_iff_eq.mp hbeq), hpn]

theorem all_false_of_changes_le_one {p : Nat → Bool} :
    ∀ {m : Nat}, p 0 = false → p m = false → changesUpTo p m ≤ 1 →
    ∀ h ≤ m, p h = false := by
  intro m
  induction m with
  | zero => intro h0 _ _ h hh; interval_cases h; exact h0
  | succ n ih =>
      intro h0 hlast hch h hh
      cases hpn : p n with
      | false =>
          have hch2 : changesUpTo p n ≤ 1 := by
            simp only [changesUpTo] at hch
            omega
          rcases Nat.le_succ_iff.mp hh with h1 | h1
          · exact ih h0 hpn hch2 h h1
          · subst h1; exact hlast
      | true =>
          exfalso
          have hind : (if p n == p (n + 1) then 0 else 1) = 1 := by
            rw [hpn, hlast]; rfl
          have hch0 : changesUpTo p n = 0 := by
            simp only [changesUpTo, hind] at hch
            omega
          have := changesUpTo_zero_all_eq hch0 n (Nat.le_refl n)
          rw [hpn, h0] at this
          exact absurd this (by simp)

theorem upper_shape_of_changes_le_one {p : Nat → Bool} :
    ∀ {m : Nat}, changesUpTo p m ≤ 1 → p m = true →
    ∃ a, a ≤ m ∧ ∀ h ≤ m, (p h = true ↔ a ≤ h) := by
  intro m
  induction m with
  | zero =>
      intro _ hm
      exact ⟨0, Nat.le_refl 0, fun h hh => by
        interval_cases h
        simp [hm]⟩
  | succ n ih =>
      intro hch hlast
      cases hpn : p n with
      | true =>
          have hch2 : changesUpTo p n ≤ 1 := by
            simp only [changesUpTo] at hch
            omega
          obtain ⟨a, ha, hsh⟩ := ih hch2 hpn
          refine ⟨a, Nat.le_succ_of_le ha, fun h hh => ?_⟩
          rcases Nat.le_succ_iff.mp hh with h1 | h1
          · exact hsh h h1
          · subst h1
            simp only [hlast, true_iff]
            exact Nat.le_succ_of_le ha
      | false =>
          have hind : (if p n == p (n + 1) then 0 else 1) = 1 := by
            rw [hpn, hlast]; rfl
          have hch0 : changesUpTo p n = 0 := by
            simp only [changesUpTo, hind] at hch
            omega
          have hall := changesUpTo_zero_all_eq hch0
          have hp0 : p 0 = false := by
            have := hall n (Nat.le_refl n)
            rw [hpn] at this
            exact this.symm
          refine ⟨n + 1, Nat.le_refl _, fun h hh => ?_⟩
          rcases Nat.le_succ_iff.mp hh with h1 | h1
          · have : p h = false := by rw [hall h h1, hp0]
            simp only [this]
            constructor
            · intro hc; exact absurd hc (by simp)
            · intro hc; omega
          · subst h1
            simp [hlast]

theorem shape_of_changes_head_false {p : Nat → Bool} :
    ∀ {m : Nat}, p 0 = false → changesUpTo p m ≤ 2 →
    ∃ a b, a + b ≤ m + 1 ∧ ∀ h ≤ m, (p h = true ↔ (a ≤ h ∧ h < a + b)) := by
  intro m
  induction m with
  | zero =>
      intro h0 _
      exact ⟨0, 0, by omega, fun h hh => by
        interval_cases h
        simp [h0]⟩
  | succ n ih =>
      intro h0 hch
      have hch2 : changesUpTo p n ≤ 2 := by
        simp only [changesUpTo] at hch
        omega
      cases hpn1 : p (n + 1) with
      | false =>
          obtain ⟨a, b, hab, hsh⟩ := ih h0 hch2
          refine ⟨a, b, by omega, fun h hh => ?_⟩
          rcases Nat.le_succ_iff.mp hh with h1 | h1
          · exact hsh h h1
          · subst h1
            simp only [hpn1]
            constructor
            · intro hc; exact absurd hc (by simp)
            · intro hc; omega
      | true =>
          cases hpn : p n with
          | true =>
              obtain ⟨a, b, hab, hsh⟩ := ih h0 hch2
              have hn : a ≤ n ∧ n < a + b := (hsh n (Nat.le_refl n)).mp hpn
              have hab2 : a + b = n + 1 := by omega
              refine ⟨a, b + 1, by omega, fun h hh => ?_⟩
              rcases Nat.le_succ_iff.mp hh with h1 | h1
              · rw [hsh h h1]
                omega
              · subst h1
                simp only [hpn1, true_iff]
                omega
          | false =>
              have hind : (if p n == p (n + 1) then 0 else 1) = 1 := by
                rw [hpn, hpn1]; rfl
              have hch1 : changesUpTo p n ≤ 1 := by
                simp only [changesUpTo, hind] at hch
                omega
              have hall := all_false_of_changes_le_one h0 hpn hch1
              refine ⟨n + 1, 1, by omega, fun h hh => ?_⟩
              rcases Nat.le_succ_iff.mp hh with h1 | h1
              · simp only [hall h h1]
                constructor
                · intro hc; exact absurd hc (by simp)
                · intro hc; omega
              · subst h1
                simp only [hpn1, true_iff]
                omega

theorem shape_of_changes_last_false {p : Nat → Bool} :
    ∀ {m : Nat}, p m = false → changesUpTo p m ≤ 2 →
    ∃ a b, a + b ≤ m + 1 ∧ ∀ h ≤ m, (p h = true ↔ (a ≤ h ∧ h < a + b)) := by
  intro m
  induction m with
  | zero =>
      intro h0 _
      exact ⟨0, 0, by omega, fun h hh => by
        interval_cases h
        simp [h0]⟩
  | succ n ih =>
      intro hlast hch
      cases hpn : p n with
      | false =>
          have hch2 : changesUpTo p n ≤ 2 := by
            simp only [changesUpTo] at hch
            omega
          obtain ⟨a, b, hab, hsh⟩ := ih hpn hch2
          refine ⟨a, b, by omega, fun h hh => ?_⟩
          rcases Nat.le_succ_iff.mp hh with h1 | h1
          · exact hsh h h1
          · subst h1
            simp only [hlast]
            constructor
            · intro hc; exact absurd hc (by simp)
            · intro hc; omega
      | true =>
          have hind : (if p n == p (n + 1) then 0 else 1) = 1 := by
            rw [hpn, hlast]; rfl
          have hch1 : changesUpTo p n ≤ 1 := by
            simp only [changesUpTo, hind] at hch
            omega
          obtain ⟨a, ha, hsh⟩ := upper_shape_of_changes_le_one hch1 hpn
          refine ⟨a, n + 1 - a, by omega, fun h hh => ?_⟩
          rcases Nat.le_succ_iff.mp hh with h1 | h1
          · rw [hsh h h1]
            omega
          · subst h1
            simp only [hlast]
            constructor
            · intro hc; exact absurd hc (by simp)
            · intro hc; omega

theorem range'_snoc : ∀ (n a : Nat),
    List.range' a (n + 1) = List.range' a n ++ [a + n] := by
  intro n
  induction n with
  | zero => intro a; simp
  | succ m ih =>
      intro a
      have h1 : List.range' a (m + 2) = a :: List.range' (a + 1) (m + 1) := rfl
      rw [h1, ih (a + 1)]
      have h2 : List.range' a (m + 1) = a :: List.range' (a + 1) m := rfl
      rw [h2]
      simp
      omega

theorem chainSucc_range' : ∀ (b a : Nat), chainSucc (List.range' a b) = true := by
  intro b
  induction b with
  | zero => intro a; rfl
  | succ n ih =>
      intro a
      cases n with
      | zero => rfl
      | succ m =>
          have h1 : List.range' a (m + 2) = a :: (a + 1) :: List.range' (a + 2) m :=
            rfl
          have h2 : (a + 1) :: List.range' (a + 2) m = List.range' (a + 1) (m + 1) :=
            rfl
          rw [h1]
          simp only [chainSucc, h2, ih (a + 1)]
          simp

theorem filter_range_eq_range' :
    ∀ (H : Nat) (a b : Nat) (p : Nat → Bool), a + b ≤ H →
    (∀ h < H, (p h = true ↔ (a ≤ h ∧ h < a + b))) →
    (List.range H).filter p = List.range' a b := by
  intro H
  induction H with
  | zero =>
      intro a b p hab _
      have ha : a = 0 := by omega
      have hb : b = 0 := by omega
      subst ha; subst hb
      rfl
  | succ n ih =>
      intro a b p hab hsh
      have hsplit : (List.range (n + 1)).filter p
          = (List.range n).filter p ++ [n].filter p := by
        rw [List.range_succ, List.filter_append]
      cases hpn : p n with
      | false =>
          cases b with
          | zero =>
              have hnil : (List.range (n + 1)).filter p = [] := by
                apply List.filter_eq_nil_iff.mpr
                intro x hx
                intro hpx
                have := (hsh x (List.mem_range.mp hx)).mp hpx
                omega
              rw [hnil]
              rfl
          | succ b2 =>
              have hale : a ≤ n := by
                by_contra hc
                omega
              have hnlt : ¬ (n < a + (b2 + 1)) := by
                intro hc
                exact absurd ((hsh n (Nat.lt_succ_self n)).mpr ⟨hale, hc⟩)
                  (by simp [hpn])
              have hab2 : a + (b2 + 1) ≤ n := by omega
              rw [hsplit]
              have : ([n].filter p) = [] := by simp [hpn]
              rw [this, List.append_nil]
              exact ih a (b2 + 1) p hab2
                (fun h hh => hsh h (Nat.lt_succ_of_lt hh))
      | true =>
          have hn := (hsh n (Nat.lt_succ_self n)).mp hpn
          have hab2 : a + b = n + 1 := by omega
          cases b with
          | zero => omega
          | succ b2 =>
              have hb2 : a + b2 = n := by omega
              have hih : (List.range n).filter p = List.range' a b2 := by
                apply ih a b2 p (by omega)
                intro h hh
                rw [hsh h (Nat.lt_succ_of_lt hh)]
                omega
              rw [hsplit, hih]
              have : ([n].filter p) = [n] := by simp [hpn]
              rw [this, ← hb2]
              exact (range'_snoc b2 a).symm

/-! ### Lemmas linking solutions of the transition group to day profiles -/

theorem le_of_conHolds {σ : CAssign} {terms : List (Int × CVar)} {bound : Int}
    (h : conHolds σ ⟨terms, CmpOp.le, bound, none⟩ = true) :
    evalTerms σ terms ≤ bound := by
  simpa [conHolds, litOk, holdsCmp] using h

theorem transitionConsFor_subset {E D H e d : Nat} (he : e < E) (hd : d < D)
    {c : LinCon} (hc : c ∈ transitionConsFor e d H) :
    c ∈ add_transition_constraints E D H := by
  simp only [add_transition_constraints, List.mem_flatMap]
  exact ⟨e, List.mem_range.mpr he, d, List.mem_range.mpr hd, hc⟩

theorem trans_reified_mem (e d H h : Nat) (hh : h < H - 1) :
    (⟨[(1, CVar.shift e d h), (-1, CVar.shift e d (h + 1))], CmpOp.ne, 0,
      some (CVar.transVar e d h, true)⟩ : LinCon) ∈ transitionConsFor e d H
    ∧ (⟨[(1, CVar.shift e d h), (-1, CVar.shift e d (h + 1))], CmpOp.eq, 0,
      some (CVar.transVar e d h, false)⟩ : LinCon) ∈ transitionConsFor e d H := by
  constructor <;>
    · apply List.mem_append_left
      simp only [List.mem_flatMap]
      exact ⟨h, List.mem_range.mpr hh, by simp⟩

theorem trans_sum_mem (e d H : Nat) :
    (⟨(List.range (H - 1)).map (fun h => ((1 : Int), CVar.transVar e d h)),
      CmpOp.le, 2, none⟩ : LinCon) ∈ transitionConsFor e d H :=
  List.mem_append_right _ (List.mem_singleton.mpr rfl)

theorem trans_forced {σ : CAssign} {e d h : Nat}
    (h1 : conHolds σ ⟨[(1, CVar.shift e d h), (-1, CVar.shift e d (h + 1))],
      CmpOp.ne, 0, some (CVar.transVar e d h, true)⟩ = true)
    (h2 : conHolds σ ⟨[(1, CVar.shift e d h), (-1, CVar.shift e d (h + 1))],
      CmpOp.eq, 0, some (CVar.transVar e d h, false)⟩ = true) :
    σ (CVar.transVar e d h)
      = (σ (CVar.shift e d h) != σ (CVar.shift e d (h + 1))) := by
  cases hx : σ (CVar.shift e d h) <;> cases hy : σ (CVar.shift e d (h + 1)) <;>
    cases ht : σ (CVar.transVar e d h) <;>
      simp_all [conHolds, litOk, holdsCmp, evalTerms, b2i]

theorem transSum_eq_changes (σ : CAssign) (e d : Nat) :
    ∀ n : Nat,
    (∀ h < n, σ (CVar.transVar e d h)
      = (σ (CVar.shift e d h) != σ (CVar.shift e d (h + 1)))) →
    evalTerms σ ((List.range n).map (fun h => ((1 : Int), CVar.transVar e d h)))
      = Int.ofNat (changesUpTo (fun h => σ (CVar.shift e d h)) n) := by
  intro n
  induction n with
  | zero => intro _; rfl
  | succ m ih =>
      intro hforce
      have hsplit : (List.range (m + 1)).map
          (fun h => ((1 : Int), CVar.transVar e d h))
          = (List.range m).map (fun h => ((1 : Int), CVar.transVar e d h))
            ++ [((1 : Int), CVar.transVar e d m)] := by
        rw [List.range_succ, List.map_append]
        rfl
      rw [hsplit, evalTerms_append,
        ih (fun h hh => hforce h (Nat.lt_succ_of_lt hh))]
      have hm := hforce m (Nat.lt_succ_self m)
      have hval : evalTerms σ [((1 : Int), CVar.transVar e d m)]
          = Int.ofNat (if σ (CVar.shift e d m) == σ (CVar.shift e d (m + 1))
              then 0 else 1) := by
        rw [show evalTerms σ [((1 : Int), CVar.transVar e d m)]
            = 1 * b2i (σ (CVar.transVar e d m)) + 0 from rfl]
        rw [hm]
        cases hb : σ (CVar.shift e d m) == σ (CVar.shift e d (m + 1)) <;>
          simp_all [b2i, bne]
      rw [hval]
      simp only [changesUpTo]
      exact (Int.ofNat_add _ _).symm

/-- Claim C6, amended (status: corrected).  With the transition group enabled,
the extracted hour list of any solution for `(e, d)` is empty or a single
contiguous ascending run, provided the employee is off at hour 0 or off at the
last hour of the day.  When the employee works both boundary hours, the ≤2
transition budget also admits two runs touching the two day boundaries — the
counterexample exhibits such a solution, so the unconditional claim fails. -/
theorem transition_contiguous_when_boundary_off
    (availRows : List AvailabilityRow) (emps : List EmployeeRow)
    (wd : Nat × Nat → Option WorkloadReq) (se : Nat → List Nat)
    (tsRows : List TimeslotRow) (skills : List Nat) (E D H nTs : Nat)
    (mIds aIds : List Nat) (fl : AssembleFlags) (m : List LinCon)
    (σ : CAssign) (e d : Nat)
    (hset : setup_constraints availRows emps wd se tsRows skills E D H nTs
      mIds aIds fl = .ok m)
    (htr : fl.enableTransition = true)
    (hσ : modelHolds σ m = true)
    (he : e < E) (hd : d < D)
    (hb : σ (CVar.shift e d 0) = false ∨ σ (CVar.shift e d (H - 1)) = false) :
    chainSucc (extractHours σ e d H) = true := by
  obtain ⟨cdo, wl, hcdo, hwlif, hm⟩ := setup_ok_parts hset
  have hmemTR : ∀ c ∈ transitionConsFor e d H, c ∈ m := by
    intro c hc
    rw [hm]
    apply List.mem_append_left
    apply List.mem_append_left
    apply List.mem_append_left
    apply List.mem_append_right
    have := transitionConsFor_subset he hd hc
    simp [htr, this]
  cases H with
  | zero => rfl
  | succ m0 =>
      have hforce : ∀ h < m0, σ (CVar.transVar e d h)
          = (σ (CVar.shift e d h) != σ (CVar.shift e d (h + 1))) := by
        intro h hh
        have hh2 : h < (m0 + 1) - 1 := by omega
        obtain ⟨m1, m2⟩ := trans_reified_mem e d (m0 + 1) h hh2
        exact trans_forced (conHolds_of_modelHolds hσ (hmemTR _ m1))
          (conHolds_of_modelHolds hσ (hmemTR _ m2))
      have hsum : evalTerms σ ((List.range ((m0 + 1) - 1)).map
          (fun h => ((1 : Int), CVar.transVar e d h))) ≤ 2 :=
        le_of_conHolds (conHolds_of_modelHolds hσ
          (hmemTR _ (trans_sum_mem e d (m0 + 1))))
      have hch : changesUpTo (fun h => σ (CVar.shift e d h)) m0 ≤ 2 := by
        have heq := transSum_eq_changes σ e d m0 hforce
        have hsum2 : Int.ofNat (changesUpTo (fun h => σ (CVar.shift e d h)) m0)
            ≤ 2 := by
          rw [← heq]
          exact hsum
        rw [Int.ofNat_eq_coe] at hsum2
        omega
      have hshape : ∃ a b, a + b ≤ m0 + 1
          ∧ ∀ h ≤ m0, (σ (CVar.shift e d h) = true ↔ (a ≤ h ∧ h < a + b)) := by
        rcases hb with hb | hb
        · exact shape_of_changes_head_false hb hch
        · exact shape_of_changes_last_false hb hch
      obtain ⟨a, b, hab, hsh⟩ := hshape
      have hfil : (List.range (m0 + 1)).filter (fun h => σ (CVar.shift e d h))
          = List.range' a b :=
        filter_range_eq_range' (m0 + 1) a b _ hab
          (fun h hh => hsh h (Nat.lt_succ_iff.mp hh))
      show chainSucc ((List.range (m0 + 1)).filter
        (fun h => σ (CVar.shift e d h))) = true
      rw [hfil]
      exact chainSucc_range' b a

/-- Witness for `transition_contiguous_when_boundary_off`: the all-off solution
of the 3-hour transition-only model has an empty (hence contiguous) extracted
list. -/
theorem transition_contiguous_when_boundary_off_witness :
    chainSucc (extractHours allFalseAssign 0 0 3) = true :=
  transition_contiguous_when_boundary_off [] [] (fun _ => none) (fun _ => [])
    [] [] 1 1 3 0 [] [] flTransOnly (add_transition_constraints 1 1 3)
    allFalseAssign 0 0 rfl rfl (by decide) (by decide) (by decide) (Or.inl rfl)

/-! ### Lemmas for the employee-id / grid-index mismatch -/

theorem rowIndexOfId_range' :
    ∀ (n s e : Nat), s ≤ e → e < s + n →
    rowIndexOfId (List.range' s n) e = some (e - s) := by
  intro n
  induction n with
  | zero => intro s e h1 h2; omega
  | succ m ih =>
      intro s e h1 h2
      have hr : List.range' s (m + 1) = s :: List.range' (s + 1) m := rfl
      rw [hr]
      by_cases hse : s = e
      · simp only [rowIndexOfId, if_pos hse]
        congr 1
        omega
      · simp only [rowIndexOfId, if_neg hse]
        have hs1 : s + 1 ≤ e := by omega
        rw [ih (s + 1) e hs1 (by omega)]
        simp only [Option.map_some']
        congr 1
        omega

/-- Claim C10 (status: confirmed).  In the workload-coverage and
manager-presence sums, database `EmployeeID`s are used directly as employee
indices of the variable grid, whose keys are the row positions
`0..num_employees-1`.  For 1-based ids `1..n`: the id `n` never passes the
`(e, day, hour) in timeslots_vars` membership check, so the employee with the
largest id contributes no variable to any such sum; and each in-range id `e`
contributes the shift variable of grid row `e`, whereas the employee bearing
id `e` is stored at dataframe row `e - 1 ≠ e` — the constraint binds a
different employee's variables than the one carrying the id. -/
theorem employee_id_used_as_grid_index (n D H : Nat) (elig : List Nat)
    (day hour : Nat) :
    (((1 : Int), CVar.shift n day hour) ∉ eligibleShiftTerms n D H elig day hour)
    ∧ (∀ e, e ∈ elig → 1 ≤ e → e < n → day < D → hour < H →
        ((1 : Int), CVar.shift e day hour) ∈ eligibleShiftTerms n D H elig day
          hour
        ∧ rowIndexOfId (List.range' 1 n) e = some (e - 1)
        ∧ e - 1 ≠ e) := by
  constructor
  · intro hc
    simp only [eligibleShiftTerms, List.mem_map, List.mem_filter,
      Prod.mk.injEq, CVar.shift.injEq] at hc
    obtain ⟨x, ⟨hx1, hx2⟩, hxn⟩ := hc
    rw [hxn.2.1] at hx2
    simp [gridMem] at hx2
  · intro e he h1 h2 hD hH
    refine ⟨?_, rowIndexOfId_range' n 1 e h1 (by omega), by omega⟩
    simp only [eligibleShiftTerms, List.mem_map]
    refine ⟨e, List.mem_filter.mpr ⟨he, ?_⟩, rfl⟩
    simp [gridMem, h2, hD, hH]

/-- Witness for `employee_id_used_as_grid_index` with two employees bearing
ids 1 and 2 on a 1×1 grid: id 2 is dropped from the sum, and id 1 binds grid
row 1 while the employee bearing id 1 sits at row 0. -/
theorem employee_id_used_as_grid_index_witness :
    (((1 : Int), CVar.shift 2 0 0) ∉ eligibleShiftTerms 2 1 1 [1, 2] 0 0)
    ∧ ((1 : Int), CVar.shift 1 0 0) ∈ eligibleShiftTerms 2 1 1 [1, 2] 0 0
    ∧ rowIndexOfId (List.range' 1 2) 1 = some 0
    ∧ (1 : Nat) - 1 ≠ 1 := by
  have h := employee_id_used_as_grid_index 2 1 1 [1, 2] 0 0
  have h2 := h.2 1 (by decide) (by decide) (by decide) (by decide) (by decide)
  exact ⟨h.1, h2.1, h2.2.1, h2.2.2⟩

end SS
